import Mathlib

set_option autoImplicit false

namespace Asterism

/-! Shallow embedding of the asterism core: the section model, the edit/patch
pipeline with its offset-tracking cache, and the reorder state machine
(`src/section.rs`, `src/edit_plan.rs`, `src/app_state.rs`). Text is modelled
as lists of characters, one entry per byte of the Rust `String` (all inputs
in this development are ASCII). -/

/-- A Rust `String`, modelled as its character sequence. -/
abbrev Str := List Char

/-- The whitespace predicate of Rust's `str::trim`. -/
def isWS (c : Char) : Bool := c.isWhitespace

/-- Model of Rust `str::trim_start`. -/
def trimStart (s : Str) : Str := s.dropWhile isWS

/-- Model of Rust `str::trim_end`. -/
def trimEnd (s : Str) : Str := (s.reverse.dropWhile isWS).reverse

/-- Model of Rust `str::trim`: leading and trailing whitespace removed. -/
def rustTrim (s : Str) : Str := trimEnd (trimStart s)

/-- Split a character sequence at newline characters; `n` newlines yield
`n + 1` segments. -/
def splitNl : Str → List Str
  | [] => [[]]
  | c :: rest =>
    if c = '\n' then [] :: splitNl rest
    else
      match splitNl rest with
      | [] => [[c]]
      | l :: ls => (c :: l) :: ls

/-- The lines occupied by a piece of text spliced into a file at line
boundaries: a trailing newline terminates the last line rather than opening
an empty one, and empty text occupies no line. -/
def textToLines (t : Str) : List Str :=
  if t = [] then []
  else if t.getLast? = some '\n' then (splitNl t).dropLast
  else splitNl t

/-- One planned replacement (`Edit` in `edit_plan.rs`). Line coordinates are
`i64` in the source and are modelled as integers. -/
structure Edit where
  file_name : Str
  line_start : Int
  line_end : Int
  column_start : Int
  column_end : Int
  doc_comment : Str
  item_name : Str
deriving DecidableEq

/-- The replacement text built in `EditPlan::apply`
(`format!("\n{}\n", edit.doc_comment.trim())` in `edit_plan.rs`). -/
def replacementText (c : Str) : Str := '\n' :: (rustTrim c ++ ['\n'])

/-- Modelled from the spec: the patch engine itself lives in the external
`textum` crate and is absent from the sources; §4.3 specifies that the
half-open line range `[s, e)` of the file is replaced by the normalized
replacement text, the line at index `e` never being touched. -/
def applyEditLines (lines : List Str) (s e : Nat) (c : Str) : List Str :=
  lines.take s ++ textToLines (replacementText c) ++ lines.drop e

/-- Application of one `Edit` through the patch pipeline: `EditPlan::apply`
builds the normalized replacement and hands the edit's line range to the
patch engine. (`try_into().unwrap()` in the source aborts on a negative
coordinate; claims only concern non-negative ones.) -/
def applyEdit (lines : List Str) (ed : Edit) : List Str :=
  applyEditLines lines ed.line_start.toNat ed.line_end.toNat ed.doc_comment

/-- Association-list lookup, modelling `HashMap::get`. -/
def lookupA {β : Type} : List (Str × β) → Str → Option β
  | [], _ => none
  | (k, v) :: rest, key => if k = key then some v else lookupA rest key

/-- The offset tracker's storage (`AppState.file_offsets`):
per file, a map from an original line number to the recorded line count. -/
abbrev FileOffsets := List (Str × List (Int × Nat))

/-- `AppState::cumulative_offset` applied to a file and a target line: sums
the recorded counts at keys strictly below the target; an absent file gives
zero. -/
def cumulativeOffset (fo : FileOffsets) (file : Str) (target : Int) : Nat :=
  match lookupA fo file with
  | none => 0
  | some m => ((m.filter fun p => decide (p.1 < target)).map Prod.snd).sum

/-- `AppState::rebuild_file_offsets`: the previous map is discarded entirely
(`self.file_offsets.clear()`), then, when a section is under the cursor, the
single entry for it is inserted, recording the editor's line count. -/
def rebuildFileOffsets (_fo : FileOffsets) (cur : Option (Str × Int))
    (linesAdded : Nat) : FileOffsets :=
  match cur with
  | none => []
  | some (f, l) => [(f, [(l, linesAdded)])]

/-- The offset-tracker effect of a sequence of section saves: each save ends
in `rebuild_file_offsets` with the saved section under the cursor
(`AppState::save_current`, final step). -/
def applySaves (saves : List (Int × Nat)) (file : Str) : FileOffsets :=
  saves.foldl (fun fo p => rebuildFileOffsets fo (some (file, p.1)) p.2) []

/-- Sum of the recorded drifts whose key is strictly below the target, stated
by direct recursion: entries at keys greater than or equal to the target
contribute nothing, and an empty record sums to zero. -/
def sumDriftBefore : List (Int × Nat) → Int → Nat
  | [], _ => 0
  | (k, v) :: rest, target =>
    (if k < target then v else 0) + sumDriftBefore rest target

/-- The drift entries recorded for a file; an absent file has none. -/
def entriesOf (fo : FileOffsets) (file : Str) : List (Int × Nat) :=
  (lookupA fo file).getD []

/-- A document region (`Section` in `section.rs`). -/
structure Section where
  title : Str
  level : Nat
  line_start : Int
  line_end : Int
  column_start : Int
  column_end : Int
  byte_start : Nat
  byte_end : Nat
  file_path : Str
  parent_index : Option Nat
  children_indices : List Nat
  /-- Modelled from the spec: the buffered-content field (`pending_content`,
  §3) read and written as `doc_comment` throughout `app_state.rs`; its
  declaration is absent from the copy of `section.rs`. -/
  doc_comment : Option (List Str) := none
deriving DecidableEq

/-- Modelled from the spec: the display node type (`TreeNode`, imported from
`section.rs` by `app_state.rs`) is absent from the sources. §2 and the usage
in `app_state.rs`/`ui.rs` describe a unified tree of files and sections
where only section nodes are navigable and carry the index of their section
in the live list. Only the fields the session logic reads are modelled. -/
structure TreeNode where
  navigable : Bool
  section_index : Option Nat
  level : Nat
deriving DecidableEq

/-- `TreeNode::section`: a navigable node pointing at section `idx`. -/
def TreeNode.ofSection (_s : Section) (lvl : Nat) (idx : Nat) : TreeNode :=
  { navigable := true, section_index := some idx, level := lvl }

/-- `TreeNode::file`: a non-navigable file node. -/
def TreeNode.ofFile (lvl : Nat) : TreeNode :=
  { navigable := false, section_index := none, level := lvl }

/-- Model of `Iterator::position`: the index of the first element satisfying
the predicate. -/
def position {α : Type} (p : α → Bool) : List α → Option Nat
  | [] => none
  | a :: rest => if p a then some 0 else (position p rest).map (· + 1)

/-- Model of `Iterator::enumerate`, pairing every element with its index,
starting at `i`. -/
def enumFromN {α : Type} (i : Nat) : List α → List (Nat × α)
  | [] => []
  | a :: rest => (i, a) :: enumFromN (i + 1) rest

/-- Byte-wise comparison of paths, modelling the `Ord` used by
`sorted_files.sort()`. -/
def strLt : Str → Str → Bool
  | [], [] => false
  | [], _ :: _ => true
  | _ :: _, [] => false
  | a :: as, b :: bs => if a < b then true else if b < a then false else strLt as bs

/-- Insertion into a sorted list of paths. -/
def insertSorted (x : Str) : List Str → List Str
  | [] => [x]
  | y :: ys => if strLt x y then x :: y :: ys else y :: insertSorted x ys

/-- Sorting of the file list, modelling `sorted_files.sort()`. -/
def sortStrs : List Str → List Str
  | [] => []
  | x :: xs => insertSorted x (sortStrs xs)

/-- `AppState::build_tree`: in single-file mode one navigable node per
section; in multi-file mode a non-navigable node per sorted file followed by
the nodes of that file's sections in list order. -/
def buildTree (files : List Str) (sections : List Section) : List TreeNode :=
  if files.length = 1 then
    (enumFromN 0 sections).map fun p => TreeNode.ofSection p.2 (p.2.level - 1) p.1
  else
    (sortStrs files).flatMap fun fp =>
      TreeNode.ofFile 0 ::
        (((enumFromN 0 sections).filter fun p => decide (p.2.file_path = fp)).map
          fun p => TreeNode.ofSection p.2 p.2.level p.1)

/-- The reorder lifecycle (`MoveState` in `app_state.rs`). -/
inductive MoveState where
  | none
  | selected
  | moved
deriving DecidableEq

/-- The session state (`AppState`), restricted to the fields the core
invariants read: the live section list, the display tree, the file list, the
selection, the offset tracker and the reorder sub-state. -/
structure AppState where
  sections : List Section
  tree_nodes : List TreeNode
  files : List Str
  current_node_index : Nat
  file_offsets : FileOffsets
  move_state : MoveState
  moving_section_index : Option Nat
  message : Option Str := none
deriving DecidableEq

/-- `AppState::get_current_section_index`. -/
def getCurrentSectionIndex (st : AppState) : Option Nat :=
  match st.tree_nodes[st.current_node_index]? with
  | some n => n.section_index
  | none => none

/-- `AppState::get_current_section`. -/
def getCurrentSection (st : AppState) : Option Section :=
  (getCurrentSectionIndex st).bind fun idx => st.sections[idx]?

/-- `AppState::rebuild_tree`: rebuild the display tree, then keep the cursor
on the node carrying the previously selected section index. -/
def rebuildTree (st : AppState) : AppState :=
  let st' := { st with tree_nodes := buildTree st.files st.sections }
  match getCurrentSectionIndex st' with
  | some cs =>
    match position (fun n => decide (n.section_index = some cs)) st'.tree_nodes with
    | some ni => { st' with current_node_index := ni }
    | none => st'
  | none => st'

/-- `AppState::start_move`. -/
def startMove (st : AppState) : AppState :=
  match getCurrentSectionIndex st with
  | some idx =>
    { st with moving_section_index := some idx, move_state := MoveState.selected }
  | none => st

/-- `AppState::cancel_move`. -/
def cancelMove (st : AppState) : AppState :=
  { st with moving_section_index := none, move_state := MoveState.none }

/-- `Vec::swap` on the section list. -/
def swapAt {α : Type} (l : List α) (i j : Nat) : List α :=
  match l[i]?, l[j]? with
  | some a, some b => (l.set i b).set j a
  | _, _ => l

/-- After a swap or relocation the cursor is placed on the node carrying the
moved section's new index (`tree_nodes.iter().position(...)`). -/
def followMoved (st : AppState) (idx : Nat) : AppState :=
  match position (fun n => decide (n.section_index = some idx)) st.tree_nodes with
  | some ni => { st with current_node_index := ni }
  | none => st

/-- `AppState::move_section_up`. -/
def moveSectionUp (st : AppState) : AppState × Bool :=
  match st.moving_section_index with
  | some idx =>
    if 0 < idx then
      let st1 := rebuildTree { st with
        sections := swapAt st.sections idx (idx - 1),
        moving_section_index := some (idx - 1) }
      let st2 := followMoved st1 (idx - 1)
      ({ st2 with move_state := MoveState.moved }, true)
    else (st, false)
  | none => (st, false)

/-- `AppState::move_section_down`. (`self.sections.len() - 1` underflows in
the source for an empty list, where the subsequent swap would abort; the
truncated subtraction makes the guard fail instead.) -/
def moveSectionDown (st : AppState) : AppState × Bool :=
  match st.moving_section_index with
  | some idx =>
    if idx < st.sections.length - 1 then
      let st1 := rebuildTree { st with
        sections := swapAt st.sections idx (idx + 1),
        moving_section_index := some (idx + 1) }
      let st2 := followMoved st1 (idx + 1)
      ({ st2 with move_state := MoveState.moved }, true)
    else (st, false)
  | none => (st, false)

/-- `AppState::move_section_to_top` (`remove` then `insert(0, ..)`); an
out-of-range move target would abort in the source and is modelled as a
no-op. -/
def moveSectionToTop (st : AppState) : AppState × Bool :=
  match st.moving_section_index with
  | some idx =>
    if 0 < idx then
      match st.sections[idx]? with
      | some sec =>
        let st1 := rebuildTree { st with
          sections := sec :: st.sections.eraseIdx idx,
          moving_section_index := some 0 }
        let st2 := followMoved st1 0
        ({ st2 with move_state := MoveState.moved }, true)
      | none => (st, false)
    else (st, false)
  | none => (st, false)

/-- `AppState::move_section_to_bottom` (`remove` then `push`). -/
def moveSectionToBottom (st : AppState) : AppState × Bool :=
  match st.moving_section_index with
  | some idx =>
    if idx < st.sections.length - 1 then
      match st.sections[idx]? with
      | some sec =>
        let st1 := rebuildTree { st with
          sections := st.sections.eraseIdx idx ++ [sec],
          moving_section_index := some (st.sections.length - 1) }
        let st2 := followMoved st1 (st.sections.length - 1)
        ({ st2 with move_state := MoveState.moved }, true)
      | none => (st, false)
    else (st, false)
  | none => (st, false)

/-- `AppState::move_section_in`: decrement the level, floor 1. -/
def moveSectionIn (st : AppState) : AppState × Bool :=
  match st.moving_section_index with
  | some idx =>
    match st.sections[idx]? with
    | some sec =>
      if 1 < sec.level then
        let st1 := rebuildTree { st with
          sections := st.sections.set idx { sec with level := sec.level - 1 } }
        ({ st1 with move_state := MoveState.moved }, true)
      else (st, false)
    | none => (st, false)
  | none => (st, false)

/-- `AppState::move_section_out`: increment the level, ceiling 6. -/
def moveSectionOut (st : AppState) : AppState × Bool :=
  match st.moving_section_index with
  | some idx =>
    match st.sections[idx]? with
    | some sec =>
      if sec.level < 6 then
        let st1 := rebuildTree { st with
          sections := st.sections.set idx { sec with level := sec.level + 1 } }
        ({ st1 with move_state := MoveState.moved }, true)
      else (st, false)
    | none => (st, false)
  | none => (st, false)

/-- The forward scan of `AppState::navigate_to_next_sibling`, starting at
list index `i`: the first later entry at the wanted level, unless an entry
at a strictly shallower level is met first. -/
def siblingScan (secs : List Section) (lvl : Nat) (i : Nat) : Option Nat :=
  if h : i < secs.length then
    let s := secs.get ⟨i, h⟩
    if s.level = lvl then some i
    else if s.level < lvl then none
    else siblingScan secs lvl (i + 1)
  else none
termination_by secs.length - i

/-- `AppState::navigate_to_next_sibling`: scan forward from the current
section for the next one at the same level, stopping at a shallower entry,
then locate the tree node carrying the found index. -/
def navigateToNextSibling (st : AppState) : Option Nat :=
  match getCurrentSectionIndex st with
  | none => none
  | some sidx =>
    match st.sections[sidx]? with
    | none => none
    | some sec =>
      match siblingScan st.sections sec.level (sidx + 1) with
      | some i => position (fun n => decide (n.section_index = some i)) st.tree_nodes
      | none => none

/-- The status message set at the end of `AppState::save_current`. -/
def msgSaved : Str := ['S', 'a', 'v', 'e', 'd']

/-- The reload phase of `AppState::save_current` (everything after the plan
has been applied to disk), given the freshly parsed sections of the saved
file: buffer the editor content on the saved section, drop that file's old
sections, splice in the new ones, re-resolve the selection by first
`(title, level)` match, and rebuild the offset tracker from the selection. -/
def saveCurrentReload (st : AppState) (editorContent : List Str)
    (newSections : List Section) : AppState :=
  match getCurrentSectionIndex st with
  | none => st
  | some sidx =>
    match st.sections[sidx]? with
    | none => st
    | some sec0 =>
      let secs0 := st.sections.set sidx { sec0 with doc_comment := some editorContent }
      let retained := secs0.filter fun s => decide (¬ s.file_path = sec0.file_path)
      let st1 :=
        match position
            (fun s => decide (s.title = sec0.title ∧ s.level = sec0.level)) newSections with
        | some li =>
          let g := retained.length + li
          let st' := rebuildTree { st with sections := retained ++ newSections }
          match position (fun n => decide (n.section_index = some g)) st'.tree_nodes with
          | some ni => { st' with current_node_index := ni }
          | none => st'
        | none => rebuildTree { st with sections := retained ++ newSections }
      let cur := (getCurrentSectionIndex st1).bind fun i =>
        (st1.sections[i]?).map fun s => (s.file_path, s.line_start)
      { st1 with
        file_offsets := rebuildFileOffsets st1.file_offsets cur editorContent.length,
        message := some msgSaved }

/-- The body text a reorder rewrite extracts for one section: the trimmed
byte range of the current content when in bounds, empty otherwise
(`AppState::rewrite_file_sections`). An inverted in-bounds range would abort
in the source; the truncated `take` yields the same empty body as a
zero-length range. -/
def extractTrimmed (content : Str) (s : Section) : Str :=
  if s.byte_start < content.length ∧ s.byte_end ≤ content.length then
    rustTrim ((content.drop s.byte_start).take (s.byte_end - s.byte_start))
  else []

/-- The heading line emitted for one section: `level`-many markers, a space,
the title. -/
def headingOf (s : Section) : Str :=
  List.replicate s.level '#' ++ [' '] ++ s.title

/-- The text `AppState::rewrite_file_sections` pushes for one section: the
heading, a blank line, and — only when the trimmed body is nonempty — the
body and a blank line. -/
def emitSection (content : Str) (s : Section) : Str :=
  let body := extractTrimmed content s
  headingOf s ++ ['\n', '\n'] ++ (if body = [] then [] else body ++ ['\n', '\n'])

/-- `AppState::rewrite_file_sections` restricted to its content computation:
the concatenation of every section's emitted text, in list order. -/
def rewriteFileSections (content : Str) (secs : List Section) : Str :=
  secs.foldl (fun acc s => acc ++ emitSection content s) []

/-- One section's block in the words of the spec (§6): heading line, blank
line, trimmed body, blank line. -/
def specSectionBlock (content : Str) (s : Section) : Str :=
  headingOf s ++ ['\n', '\n'] ++ extractTrimmed content s ++ ['\n', '\n']

/-- The rewritten-file format in the words of the spec (§6): every section's
block, in list order. -/
def specRewriteFileSections (content : Str) (secs : List Section) : Str :=
  secs.foldl (fun acc s => acc ++ specSectionBlock content s) []

/-- The file system visible to the session: file path to file bytes. -/
abbrev FS := List (Str × Str)

/-- A write to the file system (`fs::write`). -/
def fsWrite (fs : FS) (path content : Str) : FS :=
  match fs with
  | [] => [(path, content)]
  | (p, c) :: rest =>
    if p = path then (path, content) :: rest else (p, c) :: fsWrite rest path content

/-- The distinct file paths of the section list in first-seen order,
modelling the grouping of `save_section_reorder`. -/
def groupKeys (secs : List Section) : List Str :=
  secs.foldl (fun acc s => if s.file_path ∈ acc then acc else acc ++ [s.file_path]) []

/-- The per-file rewrites of `save_section_reorder`: each file is read and
rewritten in turn; a failed read aborts the remaining writes (`?`). -/
def writeAll (secs : List Section) : FS → List Str → FS
  | fs, [] => fs
  | fs, fp :: rest =>
    match lookupA fs fp with
    | none => fs
    | some content =>
      writeAll secs
        (fsWrite fs fp
          (rewriteFileSections content (secs.filter fun s => decide (s.file_path = fp))))
        rest

/-- The file-system effect of `AppState::save_section_reorder`: nothing is
written unless the reorder state is `Moved`; otherwise every file holding
sections is rewritten wholesale. -/
def saveSectionReorderFS (st : AppState) (fs : FS) : FS :=
  if st.move_state = MoveState.moved then writeAll st.sections fs (groupKeys st.sections)
  else fs

/-- The key actions gated by the reorder protocol. -/
inductive ReorderAction where
  | start
  | up
  | down
  | top
  | bottom
  | levelIn
  | levelOut
  | cancel

/-- One reorder step on the session and the file system: none of the reorder
actions performs any file I/O in the source, so the file system component is
carried through unchanged. -/
def reorderStep (p : AppState × FS) (a : ReorderAction) : AppState × FS :=
  match a with
  | ReorderAction.start => (startMove p.1, p.2)
  | ReorderAction.up => ((moveSectionUp p.1).1, p.2)
  | ReorderAction.down => ((moveSectionDown p.1).1, p.2)
  | ReorderAction.top => ((moveSectionToTop p.1).1, p.2)
  | ReorderAction.bottom => ((moveSectionToBottom p.1).1, p.2)
  | ReorderAction.levelIn => ((moveSectionIn p.1).1, p.2)
  | ReorderAction.levelOut => ((moveSectionOut p.1).1, p.2)
  | ReorderAction.cancel => (cancelMove p.1, p.2)

/-! Concrete inputs shared by the witnesses below: a single-file session over
`"f"` holding four sections `A¹ B² C¹ D²` (superscripts are levels). -/

/-- Demo section `A`, level 1, with children `[1]`. -/
def secA : Section :=
  { title := ['A'], level := 1, line_start := 2, line_end := 4, column_start := 0,
    column_end := 3, byte_start := 0, byte_end := 1, file_path := ['f'],
    parent_index := none, children_indices := [1] }

/-- Demo section `B`, level 2, child of `A`. -/
def secB : Section :=
  { title := ['B'], level := 2, line_start := 5, line_end := 7, column_start := 0,
    column_end := 4, byte_start := 1, byte_end := 2, file_path := ['f'],
    parent_index := some 0, children_indices := [] }

/-- Demo section `C`, level 1, with children `[3]`. -/
def secC : Section :=
  { title := ['C'], level := 1, line_start := 8, line_end := 10, column_start := 0,
    column_end := 3, byte_start := 2, byte_end := 3, file_path := ['f'],
    parent_index := none, children_indices := [3] }

/-- Demo section `D`, level 2, child of `C`. -/
def secD : Section :=
  { title := ['D'], level := 2, line_start := 11, line_end := 13, column_start := 0,
    column_end := 4, byte_start := 3, byte_end := 4, file_path := ['f'],
    parent_index := some 2, children_indices := [] }

/-- The demo section list. -/
def demoSections : List Section := [secA, secB, secC, secD]

/-- The demo session: single file, cursor on `B`, no move in progress. -/
def demoState : AppState :=
  { sections := demoSections, tree_nodes := buildTree [['f']] demoSections,
    files := [['f']], current_node_index := 1, file_offsets := [],
    move_state := MoveState.none, moving_section_index := none }

/-- The demo on-disk state. -/
def demoFS : FS := [(['f'], ['#', ' ', 'A', '\n'])]

/-- A demo file of four one-character lines. -/
def demoLines : List Str := [['a'], ['b'], ['c'], ['d']]

/-- A demo edit replacing lines `[0, 3)` with the single-line content `x`. -/
def demoEdit : Edit :=
  { file_name := ['f'], line_start := 0, line_end := 3, column_start := 0,
    column_end := 1, doc_comment := ['x'], item_name := ['t'] }

/-- A demo edit replacing line 1 only. -/
def demoEdit2 : Edit :=
  { file_name := ['f'], line_start := 1, line_end := 2, column_start := 0,
    column_end := 1, doc_comment := [' ', 'x', '\n'], item_name := ['t'] }

/-- A demo edit replacing lines `[1, 3)` whose normalized replacement also
spans two lines. -/
def demoEdit3 : Edit :=
  { file_name := ['f'], line_start := 1, line_end := 3, column_start := 0,
    column_end := 1, doc_comment := [' ', 'x', '\n'], item_name := ['t'] }

/-- A demo section whose byte range is empty, so its trimmed body is empty. -/
def secEmptyBody : Section :=
  { title := ['T'], level := 1, line_start := 2, line_end := 2, column_start := 0,
    column_end := 3, byte_start := 0, byte_end := 0, file_path := ['f'],
    parent_index := none, children_indices := [] }

/-- A demo file content of four distinct non-blank characters. -/
def demoContent : Str := ['a', 'b', 'c', 'd']

/-- A single-file session holding only section `A`, cursor on it. -/
def demoStateSave : AppState :=
  { sections := [secA], tree_nodes := buildTree [['f']] [secA], files := [['f']],
    current_node_index := 0, file_offsets := [], move_state := MoveState.none,
    moving_section_index := none }

/-- Demo section `G`, level 1, living in the second file `g`. -/
def secG : Section :=
  { title := ['G'], level := 1, line_start := 2, line_end := 3, column_start := 0,
    column_end := 3, byte_start := 0, byte_end := 1, file_path := ['g'],
    parent_index := none, children_indices := [] }

/-- A multi-file session over files `f` and `g` holding sections `A` (in `f`)
and `G` (in `g`); the tree interleaves file nodes, and the cursor sits on the
node of `A`. -/
def demoStateMulti : AppState :=
  { sections := [secA, secG], tree_nodes := buildTree [['f'], ['g']] [secA, secG],
    files := [['f'], ['g']], current_node_index := 1, file_offsets := [],
    move_state := MoveState.none, moving_section_index := none }

/-! Helper lemmas. -/

theorem filter_map_sum_eq_sumDriftBefore (m : List (Int × Nat)) (target : Int) :
    ((m.filter fun p => decide (p.1 < target)).map Prod.snd).sum =
      sumDriftBefore m target := by
  induction m with
  | nil => rfl
  | cons p rest ih =>
    obtain ⟨k, v⟩ := p
    by_cases h : k < target
    · simp [List.filter_cons, h, sumDriftBefore, ih]
    · simp [List.filter_cons, h, sumDriftBefore, ih]

theorem splice_take {α : Type} (A R B : List α) (s : Nat) (hA : A.length = s) :
    (A ++ R ++ B).take s = A := by
  subst hA
  rw [List.append_assoc]
  exact List.take_left _ _

theorem splice_drop {α : Type} (A R B : List α) (n : Nat) (h : (A ++ R).length = n) :
    (A ++ R ++ B).drop n = B := by
  subst h
  exact List.drop_left _ _

theorem reorderStep_fs (p : AppState × FS) (a : ReorderAction) :
    (reorderStep p a).2 = p.2 := by
  cases a <;> rfl

theorem foldl_reorderStep_fs (acts : List ReorderAction) (p : AppState × FS) :
    (acts.foldl reorderStep p).2 = p.2 := by
  induction acts generalizing p with
  | nil => rfl
  | cons a rest ih => rw [List.foldl_cons, ih, reorderStep_fs]

/-! Claims. -/

/-- C6: `cumulative_offset` returns the sum of every recorded drift entry of
the file whose key is strictly below the target line — entries at keys at or
above the target contribute nothing — and returns 0 for a file with no
recorded entries. -/
theorem cumulativeOffset_sums_entries_below (fo : FileOffsets) (file : Str)
    (target : Int) :
    cumulativeOffset fo file target = sumDriftBefore (entriesOf fo file) target := by
  unfold cumulativeOffset entriesOf
  cases lookupA fo file with
  | none => rfl
  | some m => exact filter_map_sum_eq_sumDriftBefore m target

/-- C1 (code bug): two saves in increasing original line order — line 1
recording 2 lines, then line 3 recording 4 lines — should leave a cumulative
drift of 6 before line 10, but `rebuild_file_offsets` clears the whole map on
every save, so only the last entry survives and the query returns 4. -/
theorem offsets_cleared_on_every_save :
    cumulativeOffset (applySaves [(1, 2), (3, 4)] ['f']) ['f'] 10 = 4 ∧
    sumDriftBefore [(1, 2), (3, 4)] 10 = 6 ∧
    cumulativeOffset (applySaves [(1, 2), (3, 4)] ['f']) ['f'] 10 ≠
      sumDriftBefore [(1, 2), (3, 4)] 10 := by
  decide

/-- C10: with no move target set, each of the six move operations returns
`false` and leaves the whole session state unchanged. -/
theorem moves_are_noops_without_target (st : AppState)
    (h : st.moving_section_index = none) :
    moveSectionUp st = (st, false) ∧ moveSectionDown st = (st, false) ∧
    moveSectionToTop st = (st, false) ∧ moveSectionToBottom st = (st, false) ∧
    moveSectionIn st = (st, false) ∧ moveSectionOut st = (st, false) := by
  refine ⟨?_, ?_, ?_, ?_, ?_, ?_⟩ <;>
    simp [moveSectionUp, moveSectionDown, moveSectionToTop, moveSectionToBottom,
      moveSectionIn, moveSectionOut, h]

/-- C10 witness: the demo session has no move target, and all six operations
leave it untouched. -/
theorem moves_are_noops_without_target_witness :
    moveSectionUp demoState = (demoState, false) ∧
    moveSectionDown demoState = (demoState, false) ∧
    moveSectionToTop demoState = (demoState, false) ∧
    moveSectionToBottom demoState = (demoState, false) ∧
    moveSectionIn demoState = (demoState, false) ∧
    moveSectionOut demoState = (demoState, false) :=
  moves_are_noops_without_target demoState rfl

/-- C8: any sequence of reorder actions followed by cancel leaves the file
system byte-identical — no move action and no cancel ever writes — and a
reorder save in a state other than `Moved` writes nothing either. -/
theorem reorder_cancel_writes_nothing (acts : List ReorderAction)
    (st : AppState) (fs : FS) (st' : AppState)
    (h : st'.move_state ≠ MoveState.moved) :
    ((acts ++ [ReorderAction.cancel]).foldl reorderStep (st, fs)).2 = fs ∧
    saveSectionReorderFS st' fs = fs := by
  constructor
  · exact foldl_reorderStep_fs _ _
  · unfold saveSectionReorderFS
    rw [if_neg h]

/-- C8 witness: a concrete select–down–up sequence ending in cancel on the
demo session leaves the demo file system unchanged, as does a save attempted
outside the `Moved` state. -/
theorem reorder_cancel_writes_nothing_witness :
    (([ReorderAction.start, ReorderAction.down, ReorderAction.up] ++
        [ReorderAction.cancel]).foldl reorderStep (demoState, demoFS)).2 = demoFS ∧
    saveSectionReorderFS demoState demoFS = demoFS :=
  reorder_cancel_writes_nothing _ demoState demoFS demoState (by decide)

/-- C2: applying a single Edit with a valid half-open range `[s, e)` replaces
only lines `s .. e-1`: the prefix before `s` is byte-identical, and the whole
suffix from the line at index `e` on reappears byte-identical after the
spliced replacement. -/
theorem half_open_frame (lines : List Str) (ed : Edit)
    (_h0 : 0 ≤ ed.line_start)
    (hse : ed.line_start.toNat < ed.line_end.toNat)
    (he : ed.line_end.toNat ≤ lines.length) :
    (applyEdit lines ed).take ed.line_start.toNat = lines.take ed.line_start.toNat ∧
    (applyEdit lines ed).drop
        (ed.line_start.toNat + (textToLines (replacementText ed.doc_comment)).length) =
      lines.drop ed.line_end.toNat := by
  unfold applyEdit applyEditLines
  have hs : ed.line_start.toNat ≤ lines.length := le_trans (le_of_lt hse) he
  have hA : (lines.take ed.line_start.toNat).length = ed.line_start.toNat := by
    rw [List.length_take]
    exact Nat.min_eq_left hs
  constructor
  · exact splice_take _ _ _ _ hA
  · refine splice_drop _ _ _ _ ?_
    rw [List.length_append, hA]

/-- C2 witness: replacing line 1 of the four-line demo file with content
`" x\n"` leaves the surrounding lines intact. -/
theorem half_open_frame_witness :
    (applyEdit demoLines demoEdit2).take 1 = demoLines.take 1 ∧
    (applyEdit demoLines demoEdit2).drop
        (1 + (textToLines (replacementText demoEdit2.doc_comment)).length) =
      demoLines.drop 2 :=
  half_open_frame demoLines demoEdit2 (by decide) (by decide) (by decide)

/-- Dropping a leading run of whitespace characters is absorbed by
`dropWhile isWS`. -/
theorem dropWhile_ws_append (w x : Str) (h : ∀ a ∈ w, isWS a = true) :
    (w ++ x).dropWhile isWS = x.dropWhile isWS := by
  induction w with
  | nil => rfl
  | cons a as ih =>
    rw [List.cons_append, List.dropWhile_cons, if_pos (h a (List.mem_cons_self a as))]
    exact ih fun b hb => h b (List.mem_cons_of_mem a hb)

/-- A run of whitespace trims away entirely. -/
theorem dropWhile_ws_nil (w : Str) (h : ∀ a ∈ w, isWS a = true) :
    w.dropWhile isWS = [] := by
  have := dropWhile_ws_append w [] h
  simpa using this

/-- Trailing whitespace is absorbed by `trim_end`. -/
theorem trimEnd_append_ws (x w : Str) (h : ∀ a ∈ w, isWS a = true) :
    trimEnd (x ++ w) = trimEnd x := by
  unfold trimEnd
  rw [List.reverse_append, dropWhile_ws_append]
  intro a ha
  exact h a (List.mem_reverse.mp ha)

/-- Rust's `str::trim` ignores any leading and trailing whitespace the caller
supplied around the core content. -/
theorem rustTrim_ws_invariant (wl c wr : Str)
    (hl : ∀ a ∈ wl, isWS a = true) (hr : ∀ a ∈ wr, isWS a = true) :
    rustTrim (wl ++ c ++ wr) = rustTrim c := by
  unfold rustTrim trimStart
  rw [List.append_assoc, dropWhile_ws_append wl _ hl]
  rcases h3 : c.dropWhile isWS with _ | ⟨d, ds⟩
  · rw [List.dropWhile_append, h3]
    simp only [List.isEmpty_nil, if_pos]
    rw [dropWhile_ws_nil wr hr]
  · rw [List.dropWhile_append, h3]
    simp only [List.isEmpty_cons, if_neg]
    exact trimEnd_append_ws _ _ hr

/-- C3: the text substituted by the patch pipeline is exactly one newline,
the whitespace-trimmed replacement content, and one newline, whatever leading
or trailing whitespace the caller supplied around the content; the file after
the edit is the untouched prefix, those spliced lines, and the untouched
suffix. -/
theorem substituted_text_normalized (lines : List Str) (ed : Edit) (c wl wr : Str)
    (hdc : ed.doc_comment = wl ++ c ++ wr)
    (hl : ∀ a ∈ wl, isWS a = true) (hr : ∀ a ∈ wr, isWS a = true) :
    replacementText ed.doc_comment = '\n' :: (rustTrim c ++ ['\n']) ∧
    applyEdit lines ed =
      lines.take ed.line_start.toNat ++ textToLines ('\n' :: (rustTrim c ++ ['\n'])) ++
        lines.drop ed.line_end.toNat := by
  have hrep : replacementText ed.doc_comment = '\n' :: (rustTrim c ++ ['\n']) := by
    unfold replacementText
    rw [hdc, rustTrim_ws_invariant wl c wr hl hr]
  exact ⟨hrep, by unfold applyEdit applyEditLines; rw [hrep]⟩

/-- C3 witness: the demo edit's content `" x\n"` decomposes as whitespace,
core `x`, whitespace, and the substituted text is exactly `"\nx\n"`. -/
theorem substituted_text_normalized_witness :
    replacementText demoEdit2.doc_comment = '\n' :: (rustTrim ['x'] ++ ['\n']) ∧
    applyEdit demoLines demoEdit2 =
      demoLines.take 1 ++ textToLines ('\n' :: (rustTrim ['x'] ++ ['\n'])) ++
        demoLines.drop 2 :=
  substituted_text_normalized demoLines demoEdit2 ['x'] [' '] ['\n']
    (by decide) (by decide) (by decide)

/-- A section whose trimmed body is nonempty emits exactly the block the spec
describes. -/
theorem emitSection_eq_specBlock (content : Str) (s : Section)
    (h : extractTrimmed content s ≠ []) :
    emitSection content s = specSectionBlock content s := by
  unfold emitSection specSectionBlock
  simp only []
  rw [if_neg h]
  simp [List.append_assoc]

/-- C7 counterexample: a section with an empty trimmed body emits only its
heading and one blank line, not the heading–blank–body–blank block the claim
describes for every section. -/
theorem rewrite_format_counterexample :
    rewriteFileSections ['x'] [secEmptyBody] ≠
      specRewriteFileSections ['x'] [secEmptyBody] := by
  decide

/-- C7 (amended): for every file all of whose sections have a nonempty
trimmed body, the reorder rewrite produces, per section in list order, the
heading line of `level`-many markers, a space and the title, then a blank
line, then the trimmed body, then a blank line. -/
theorem rewrite_format_matches_spec (content : Str) (secs : List Section)
    (h : ∀ s ∈ secs, extractTrimmed content s ≠ []) :
    rewriteFileSections content secs = specRewriteFileSections content secs := by
  unfold rewriteFileSections specRewriteFileSections
  have aux : ∀ (l : List Section) (acc : Str),
      (∀ s ∈ l, extractTrimmed content s ≠ []) →
      l.foldl (fun acc s => acc ++ emitSection content s) acc =
        l.foldl (fun acc s => acc ++ specSectionBlock content s) acc := by
    intro l
    induction l with
    | nil => intro acc _; rfl
    | cons s ss ih =>
      intro acc hl
      simp only [List.foldl_cons]
      rw [emitSection_eq_specBlock content s (hl s (List.mem_cons_self s ss))]
      exact ih _ fun t ht => hl t (List.mem_cons_of_mem s ht)
  exact aux secs [] h

/-- C7 witness: over a four-character file every demo section has a nonempty
body, and the rewrite is exactly the spec's format. -/
theorem rewrite_format_matches_spec_witness :
    (∀ s ∈ demoSections, extractTrimmed demoContent s ≠ []) ∧
    rewriteFileSections demoContent demoSections =
      specRewriteFileSections demoContent demoSections :=
  ⟨by decide, rewrite_format_matches_spec demoContent demoSections (by decide)⟩

theorem position_some_lt {α : Type} (p : α → Bool) (l : List α) :
    ∀ i, position p l = some i → i < l.length := by
  induction l with
  | nil => intro i h; simp [position] at h
  | cons a rest ih =>
    intro i h
    unfold position at h
    by_cases hp : p a
    · rw [if_pos hp] at h
      cases h
      simp
    · rw [if_neg hp] at h
      rcases Option.map_eq_some'.mp h with ⟨j, hj, hji⟩
      subst hji
      have := ih j hj
      simp
      omega

theorem enumFromN_length {α : Type} (l : List α) :
    ∀ i, (enumFromN i l).length = l.length := by
  induction l with
  | nil => intro i; rfl
  | cons a rest ih => intro i; simp [enumFromN, ih (i + 1)]

theorem enumFromN_getElem {α : Type} (l : List α) :
    ∀ i k, (enumFromN i l)[k]? = (l[k]?).map fun a => (i + k, a) := by
  induction l with
  | nil => intro i k; simp [enumFromN]
  | cons a rest ih =>
    intro i k
    cases k with
    | zero => simp [enumFromN]
    | succ k' =>
      have harith : i + 1 + k' = i + (k' + 1) := by omega
      simp only [enumFromN, List.getElem?_cons_succ, ih (i + 1) k', harith]

/-- The first tree node carrying section index `k`, among the nodes built
from sections enumerated from `i`, sits at list position `k - i`. -/
theorem position_enumFromN_node (secs : List Section) :
    ∀ i k, position (fun n => decide (n.section_index = some k))
        ((enumFromN i secs).map fun p => TreeNode.ofSection p.2 (p.2.level - 1) p.1) =
      if i ≤ k ∧ k < i + secs.length then some (k - i) else none := by
  induction secs with
  | nil =>
    intro i k
    rw [if_neg (by simp only [List.length_nil]; omega)]
    rfl
  | cons s ss ih =>
    intro i k
    simp only [enumFromN, List.map_cons, position]
    rw [ih (i + 1) k]
    simp only [TreeNode.ofSection]
    by_cases hik : i = k
    · subst hik
      rw [if_pos (by simp), if_pos (by simp only [List.length_cons]; omega)]
      simp
    · rw [if_neg (by simp [hik])]
      by_cases hc : i + 1 ≤ k ∧ k < i + 1 + ss.length
      · rw [if_pos hc, if_pos (by simp only [List.length_cons]; omega)]
        have harith : k - (i + 1) + 1 = k - i := by omega
        simp [harith]
      · rw [if_neg hc, if_neg (by simp only [List.length_cons]; omega)]
        rfl

theorem buildTree_single (fp : Str) (secs : List Section) :
    buildTree [fp] secs =
      (enumFromN 0 secs).map fun p => TreeNode.ofSection p.2 (p.2.level - 1) p.1 :=
  rfl

theorem buildTree_single_getElem (fp : Str) (secs : List Section) (k : Nat) :
    (buildTree [fp] secs)[k]? =
      (secs[k]?).map fun v => TreeNode.ofSection v (v.level - 1) k := by
  rw [buildTree_single, List.getElem?_map, enumFromN_getElem]
  cases secs[k]? <;> simp

theorem position_buildTree_single (fp : Str) (secs : List Section) (k : Nat) :
    position (fun n => decide (n.section_index = some k)) (buildTree [fp] secs) =
      if k < secs.length then some k else none := by
  rw [buildTree_single, position_enumFromN_node]
  by_cases h : k < secs.length
  · rw [if_pos (by omega), if_pos h]
    simp
  · rw [if_neg (by omega), if_neg h]

/-- With a single-file tree in place, the cursor selects its own index when
in range. -/
theorem getCSI_of_tree_single (st : AppState) (fp : Str)
    (ht : st.tree_nodes = buildTree [fp] st.sections) :
    getCurrentSectionIndex st =
      if st.current_node_index < st.sections.length then some st.current_node_index
      else none := by
  unfold getCurrentSectionIndex
  rw [ht, buildTree_single_getElem]
  by_cases h : st.current_node_index < st.sections.length
  · rw [List.getElem?_eq_getElem h, if_pos h]
    simp [TreeNode.ofSection]
  · rw [List.getElem?_eq_none (by omega), if_neg h]
    rfl

/-- In a single-file session, rebuilding the tree replaces the nodes and
keeps the cursor where it was. -/
theorem rebuildTree_single (st : AppState) (fp : Str) (hf : st.files = [fp]) :
    rebuildTree st = { st with tree_nodes := buildTree [fp] st.sections } := by
  have hbt : buildTree st.files st.sections = buildTree [fp] st.sections := by rw [hf]
  unfold rebuildTree
  simp only []
  rw [hbt]
  have ht : ({ st with tree_nodes := buildTree [fp] st.sections } : AppState).tree_nodes =
      buildTree [fp] ({ st with tree_nodes := buildTree [fp] st.sections } : AppState).sections :=
    rfl
  rw [getCSI_of_tree_single _ fp ht]
  by_cases h : st.current_node_index < st.sections.length
  · rw [if_pos h]
    simp only []
    rw [position_buildTree_single, if_pos h]
  · rw [if_neg h]

theorem getCSI_single_some (st : AppState) (fp : Str)
    (ht : st.tree_nodes = buildTree [fp] st.sections)
    (h : st.current_node_index < st.sections.length) :
    getCurrentSectionIndex st = some st.current_node_index := by
  rw [getCSI_of_tree_single st fp ht, if_pos h]

theorem position_sound {α : Type} (p : α → Bool) :
    ∀ (l : List α) (i : Nat), position p l = some i → ∃ a, l[i]? = some a ∧ p a = true := by
  intro l
  induction l with
  | nil => intro i h; simp [position] at h
  | cons x xs ih =>
    intro i h
    unfold position at h
    by_cases hp : p x
    · rw [if_pos hp] at h
      cases h
      exact ⟨x, List.getElem?_cons_zero, hp⟩
    · rw [if_neg hp] at h
      rcases Option.map_eq_some'.mp h with ⟨j, hj, hji⟩
      subst hji
      rcases ih j hj with ⟨a, ha, hpa⟩
      refine ⟨a, ?_, hpa⟩
      rw [List.getElem?_cons_succ]
      exact ha

theorem position_le_of_getElem {α : Type} (p : α → Bool) :
    ∀ (l : List α) (i : Nat) (a : α), l[i]? = some a → p a = true →
      ∃ j, j ≤ i ∧ position p l = some j := by
  intro l
  induction l with
  | nil => intro i a h; simp at h
  | cons x xs ih =>
    intro i a h hpa
    by_cases hp : p x
    · exact ⟨0, Nat.zero_le i, by unfold position; rw [if_pos hp]⟩
    · cases i with
      | zero =>
        rw [List.getElem?_cons_zero] at h
        injection h with h
        subst h
        exact absurd hpa (by simp [hp])
      | succ i' =>
        rw [List.getElem?_cons_succ] at h
        rcases ih i' a h hpa with ⟨j, hj, hpos⟩
        refine ⟨j + 1, by omega, ?_⟩
        unfold position
        rw [if_neg hp, hpos]
        rfl

theorem position_exists_of_mem {α : Type} (p : α → Bool) :
    ∀ (l : List α) (a : α), a ∈ l → p a = true → ∃ j, position p l = some j := by
  intro l
  induction l with
  | nil => intro a ha; simp at ha
  | cons x xs ih =>
    intro a ha hpa
    by_cases hp : p x
    · exact ⟨0, by unfold position; rw [if_pos hp]⟩
    · rcases List.mem_cons.mp ha with h | h
      · subst h
        exact absurd hpa (by simp [hp])
      · rcases ih a h hpa with ⟨j, hpos⟩
        exact ⟨j + 1, by unfold position; rw [if_neg hp, hpos]; rfl⟩

theorem filterMap_dup_not_nodup {α β : Type} (f : α → Option β) :
    ∀ (l : List α) (j1 j2 : Nat) (a1 a2 : α) (b : β),
      l[j1]? = some a1 → l[j2]? = some a2 → j1 < j2 →
      f a1 = some b → f a2 = some b → ¬ (l.filterMap f).Nodup := by
  intro l
  induction l with
  | nil => intro j1 j2 a1 a2 b h1; simp at h1
  | cons x xs ih =>
    intro j1 j2 a1 a2 b h1 h2 hlt hf1 hf2 hnd
    cases j2 with
    | zero => omega
    | succ j2' =>
      rw [List.getElem?_cons_succ] at h2
      cases j1 with
      | zero =>
        rw [List.getElem?_cons_zero] at h1
        injection h1 with h1
        subst h1
        rw [List.filterMap_cons, hf1] at hnd
        have hb : b ∈ xs.filterMap f :=
          List.mem_filterMap.mpr ⟨a2, List.getElem?_mem h2, hf2⟩
        exact (List.nodup_cons.mp hnd).1 hb
      | succ j1' =>
        rw [List.getElem?_cons_succ] at h1
        have hnd' : (xs.filterMap f).Nodup := by
          rw [List.filterMap_cons] at hnd
          cases hfx : f x with
          | none => rw [hfx] at hnd; exact hnd
          | some c => rw [hfx] at hnd; exact hnd.of_cons
        exact ih j1' j2' a1 a2 b h1 h2 (by omega) hf1 hf2 hnd'

theorem position_eq_of_filterMap_nodup {α β : Type} [DecidableEq β] (f : α → Option β)
    (l : List α) (i : Nat) (a : α) (b : β)
    (hnd : (l.filterMap f).Nodup) (hi : l[i]? = some a) (hb : f a = some b) :
    position (fun x => decide (f x = some b)) l = some i := by
  have hpa : decide (f a = some b) = true := by simp [hb]
  rcases position_le_of_getElem (fun x => decide (f x = some b)) l i a hi hpa with
    ⟨j, hj, hpos⟩
  rcases position_sound (fun x => decide (f x = some b)) l j hpos with ⟨a', ha', hpa'⟩
  have hfa' : f a' = some b := of_decide_eq_true hpa'
  rcases Nat.lt_or_ge j i with hlt | hge
  · exact absurd hnd (filterMap_dup_not_nodup f l j i a' a b ha' hi hlt hfa' hb)
  · have hji : j = i := by omega
    subst hji
    exact hpos

theorem filter_set_unchanged {α : Type} (p : α → Bool) :
    ∀ (l : List α) (i : Nat) (a b : α), l[i]? = some a → p a = false → p b = false →
      (l.set i b).filter p = l.filter p := by
  intro l
  induction l with
  | nil => intro i a b h; simp at h
  | cons x xs ih =>
    intro i a b h hpa hpb
    cases i with
    | zero =>
      rw [List.getElem?_cons_zero] at h
      injection h with h
      subst h
      rw [List.set_cons_zero]
      simp [List.filter_cons, hpa, hpb]
    | succ i' =>
      rw [List.getElem?_cons_succ] at h
      rw [List.set_cons_succ]
      simp only [List.filter_cons]
      rw [ih i' a b h hpa hpb]

theorem enumFromN_fst_ge {α : Type} (l : List α) :
    ∀ (i : Nat) (q : Nat × α), q ∈ enumFromN i l → i ≤ q.1 := by
  induction l with
  | nil => intro i q h; simp [enumFromN] at h
  | cons x xs ih =>
    intro i q h
    rcases List.mem_cons.mp h with h | h
    · subst h; exact le_refl i
    · have := ih (i + 1) q h
      omega

theorem enumFromN_map_fst_nodup {α : Type} (l : List α) :
    ∀ i, ((enumFromN i l).map Prod.fst).Nodup := by
  induction l with
  | nil => intro i; simp [enumFromN]
  | cons x xs ih =>
    intro i
    simp only [enumFromN, List.map_cons]
    rw [List.nodup_cons]
    refine ⟨?_, ih (i + 1)⟩
    intro hmem
    rcases List.mem_map.mp hmem with ⟨q, hq, hq1⟩
    have := enumFromN_fst_ge xs (i + 1) q hq
    omega

theorem enumFromN_fst_functional {α : Type} (l : List α) :
    ∀ (i k : Nat) (a b : α), (k, a) ∈ enumFromN i l → (k, b) ∈ enumFromN i l → a = b := by
  induction l with
  | nil => intro i k a b h; simp [enumFromN] at h
  | cons x xs ih =>
    intro i k a b ha hb
    rcases List.mem_cons.mp ha with h1 | h1 <;> rcases List.mem_cons.mp hb with h2 | h2
    · injection h1 with hk1 hx1
      injection h2 with hk2 hx2
      rw [hx1, hx2]
    · injection h1 with hk1 _
      have hge : i + 1 ≤ (k, b).1 := enumFromN_fst_ge xs (i + 1) (k, b) h2
      have hge' : i + 1 ≤ k := hge
      omega
    · injection h2 with hk2 _
      have hge : i + 1 ≤ (k, a).1 := enumFromN_fst_ge xs (i + 1) (k, a) h1
      have hge' : i + 1 ≤ k := hge
      omega
    · exact ih (i + 1) k a b h1 h2

theorem insertSorted_perm (x : Str) : ∀ (l : List Str), (insertSorted x l).Perm (x :: l) := by
  intro l
  induction l with
  | nil => exact List.Perm.refl _
  | cons y ys ih =>
    unfold insertSorted
    by_cases h : strLt x y
    · rw [if_pos h]
    · rw [if_neg h]
      exact (ih.cons y).trans (List.Perm.swap x y ys)

theorem sortStrs_perm : ∀ (l : List Str), (sortStrs l).Perm l := by
  intro l
  induction l with
  | nil => exact List.Perm.refl _
  | cons x xs ih =>
    unfold sortStrs
    exact (insertSorted_perm x (sortStrs xs)).trans (ih.cons x)

/-- The section indices carried by a run of section nodes are the enumerated
indices themselves. -/
theorem filterMap_sidx_map_ofSection (g : Nat × Section → Nat) :
    ∀ (l : List (Nat × Section)),
      ((l.map fun p => TreeNode.ofSection p.2 (g p) p.1).filterMap
        TreeNode.section_index) = l.map Prod.fst := by
  intro l
  induction l with
  | nil => rfl
  | cons q qs ih =>
    show q.1 :: ((qs.map fun p => TreeNode.ofSection p.2 (g p) p.1).filterMap
      TreeNode.section_index) = q.1 :: qs.map Prod.fst
    rw [ih]

/-- The section indices of one file's block, in enumeration order. -/
theorem block_fst_nodup (secs : List Section) (q : Nat × Section → Bool) :
    (((enumFromN 0 secs).filter q).map Prod.fst).Nodup :=
  (enumFromN_map_fst_nodup secs 0).sublist
    ((List.filter_sublist (enumFromN 0 secs)).map Prod.fst)

/-- In the multi-file tree over distinct file paths, no section index is
carried by two nodes: blocks of distinct files hold disjoint index sets and
each block's indices are distinct. -/
theorem multi_tree_filterMap_nodup (secs : List Section) :
    ∀ (fps : List Str), fps.Nodup →
      ((fps.flatMap fun fp => TreeNode.ofFile 0 ::
          (((enumFromN 0 secs).filter fun p => decide (p.2.file_path = fp)).map
            fun p => TreeNode.ofSection p.2 p.2.level p.1)).filterMap
        TreeNode.section_index).Nodup := by
  intro fps
  induction fps with
  | nil => intro _; simp
  | cons fp rest ih =>
    intro hnd
    rw [List.flatMap_cons, List.filterMap_append, List.nodup_append]
    have hblock : ((TreeNode.ofFile 0 ::
        (((enumFromN 0 secs).filter fun p => decide (p.2.file_path = fp)).map
          fun p => TreeNode.ofSection p.2 p.2.level p.1)).filterMap
          TreeNode.section_index) =
        ((enumFromN 0 secs).filter fun p => decide (p.2.file_path = fp)).map Prod.fst := by
      show ((((enumFromN 0 secs).filter fun p => decide (p.2.file_path = fp)).map
          fun p => TreeNode.ofSection p.2 p.2.level p.1).filterMap
            TreeNode.section_index) = _
      exact filterMap_sidx_map_ofSection _ _
    refine ⟨?_, ih (List.nodup_cons.mp hnd).2, ?_⟩
    · rw [hblock]
      exact block_fst_nodup secs _
    · rw [hblock]
      intro k hk1 hk2
      rcases List.mem_map.mp hk1 with ⟨q1, hq1f, hq1fst⟩
      rcases List.mem_filter.mp hq1f with ⟨hq1e, hq1p⟩
      rcases List.mem_filterMap.mp hk2 with ⟨n, hnmem, hnsidx⟩
      rcases List.mem_flatMap.mp hnmem with ⟨fp', hfp', hnblk⟩
      rcases List.mem_cons.mp hnblk with hfile | hnode
      · subst hfile
        simp [TreeNode.ofFile] at hnsidx
      · rcases List.mem_map.mp hnode with ⟨q2, hq2f, hq2n⟩
        rcases List.mem_filter.mp hq2f with ⟨hq2e, hq2p⟩
        subst hq2n
        have hk2' : q2.1 = k := by
          simpa [TreeNode.ofSection] using hnsidx
        have hq1e' : (k, q1.2) ∈ enumFromN 0 secs := by
          rw [show ((k, q1.2) : Nat × Section) = q1 from by rw [← hq1fst]]
          exact hq1e
        have hq2e' : (k, q2.2) ∈ enumFromN 0 secs := by
          rw [show ((k, q2.2) : Nat × Section) = q2 from by rw [← hk2']]
          exact hq2e
        have hs : q1.2 = q2.2 := enumFromN_fst_functional secs 0 k q1.2 q2.2 hq1e' hq2e'
        have hfp1 : q1.2.file_path = fp := of_decide_eq_true hq1p
        have hfp2 : q2.2.file_path = fp' := of_decide_eq_true hq2p
        have hff : fp = fp' := by rw [← hfp1, hs, hfp2]
        exact (List.nodup_cons.mp hnd).1 (hff ▸ hfp')

/-- Under distinct session files, no section index is carried by two nodes of
the display tree. -/
theorem buildTree_filterMap_nodup (files : List Str) (secs : List Section)
    (hnd : files.Nodup) :
    ((buildTree files secs).filterMap TreeNode.section_index).Nodup := by
  unfold buildTree
  split
  · rw [filterMap_sidx_map_ofSection]
    exact enumFromN_map_fst_nodup secs 0
  · exact multi_tree_filterMap_nodup secs (sortStrs files)
      ((sortStrs_perm files).nodup_iff.mpr hnd)

/-- Every section whose file belongs to the session has a node carrying its
index in the display tree. -/
theorem buildTree_node_mem (files : List Str) (secs : List Section) (g : Nat)
    (v : Section) (hg : secs[g]? = some v) (hmem : v.file_path ∈ files) :
    ∃ n, n ∈ buildTree files secs ∧ n.section_index = some g := by
  have henum : (g, v) ∈ enumFromN 0 secs := by
    have h0 : (enumFromN 0 secs)[g]? = some (0 + g, v) := by
      rw [enumFromN_getElem, hg]
      rfl
    have := List.getElem?_mem h0
    simpa using this
  unfold buildTree
  split
  · exact ⟨TreeNode.ofSection v (v.level - 1) g, List.mem_map_of_mem _ henum, rfl⟩
  · refine ⟨TreeNode.ofSection v v.level g, ?_, rfl⟩
    apply List.mem_flatMap.mpr
    refine ⟨v.file_path, (sortStrs_perm files).mem_iff.mpr hmem, ?_⟩
    apply List.mem_cons_of_mem
    exact List.mem_map_of_mem _ (List.mem_filter.mpr ⟨henum, by simp⟩)

/-- `rebuild_tree` only re-derives the display tree and the cursor; the
section list and the file list are untouched. -/
theorem rebuildTree_fields (st : AppState) :
    (rebuildTree st).sections = st.sections ∧
    (rebuildTree st).tree_nodes = buildTree st.files st.sections ∧
    (rebuildTree st).files = st.files := by
  unfold rebuildTree
  simp only []
  cases getCurrentSectionIndex
      { st with tree_nodes := buildTree st.files st.sections } with
  | none => exact ⟨rfl, rfl, rfl⟩
  | some cs =>
    simp only []
    cases position (fun n => decide (n.section_index = some cs))
        (buildTree st.files st.sections) with
    | none => exact ⟨rfl, rfl, rfl⟩
    | some ni => exact ⟨rfl, rfl, rfl⟩

/-- With distinct session files, `rebuild_tree`'s cursor maintenance re-finds
the very node the cursor was on, so the cursor index is preserved. -/
theorem rebuildTree_current_preserved (st : AppState) (hnd : st.files.Nodup) :
    (rebuildTree st).current_node_index = st.current_node_index := by
  unfold rebuildTree
  simp only []
  cases hg : getCurrentSectionIndex
      { st with tree_nodes := buildTree st.files st.sections } with
  | none => rfl
  | some cs =>
    simp only []
    unfold getCurrentSectionIndex at hg
    simp only [] at hg
    cases hn : (buildTree st.files st.sections)[st.current_node_index]? with
    | none =>
      rw [hn] at hg
      simp at hg
    | some n =>
      rw [hn] at hg
      simp only [] at hg
      rw [position_eq_of_filterMap_nodup TreeNode.section_index _ _ n cs
        (buildTree_filterMap_nodup st.files st.sections hnd) hn hg]

/-- C4 (amended): after a successful save, the saved file's sections are
replaced by the freshly parsed set while every other file's sections are
retained; when some new section matches the saved `(title, level)` pair, the
selection lands on the first such match in document order; when none
matches, the selection keeps its previous node index rather than the
operation failing. Premises: the cursor is on the saved section, the saved
file is one of the session's (distinct) files, and — per the parser contract
of spec §6 — the fresh sections all belong to the saved file. -/
theorem save_reload_resolves_selection (st : AppState) (ec : List Str)
    (ns : List Section) (sidx : Nat) (sec : Section)
    (hcur : getCurrentSectionIndex st = some sidx)
    (hsec : st.sections[sidx]? = some sec)
    (hnd : st.files.Nodup)
    (hmem : sec.file_path ∈ st.files)
    (hns : ∀ s ∈ ns, s.file_path = sec.file_path) :
    (saveCurrentReload st ec ns).sections =
      (st.sections.filter fun s => decide (¬ s.file_path = sec.file_path)) ++ ns ∧
    (∀ li, position (fun s => decide (s.title = sec.title ∧ s.level = sec.level)) ns =
        some li →
      getCurrentSectionIndex (saveCurrentReload st ec ns) =
        some ((st.sections.filter fun s =>
          decide (¬ s.file_path = sec.file_path)).length + li) ∧
      getCurrentSection (saveCurrentReload st ec ns) = ns[li]?) ∧
    (position (fun s => decide (s.title = sec.title ∧ s.level = sec.level)) ns = none →
      (saveCurrentReload st ec ns).current_node_index = st.current_node_index) := by
  have hR : ((st.sections.set sidx { sec with doc_comment := some ec }).filter
      fun s => decide (¬ s.file_path = sec.file_path)) =
      st.sections.filter fun s => decide (¬ s.file_path = sec.file_path) :=
    filter_set_unchanged _ st.sections sidx sec _ hsec (by simp) (by simp)
  unfold saveCurrentReload
  rw [hcur]
  simp only []
  rw [hsec]
  simp only []
  rw [hR]
  cases hpos : position (fun s => decide (s.title = sec.title ∧ s.level = sec.level)) ns with
  | some li =>
    simp only []
    rcases position_sound _ ns li hpos with ⟨v, hv, _⟩
    have hvfile : v.file_path ∈ st.files := by
      rw [hns v (List.getElem?_mem hv)]
      exact hmem
    have hgv : ((st.sections.filter fun s => decide (¬ s.file_path = sec.file_path)) ++
        ns)[(st.sections.filter fun s =>
          decide (¬ s.file_path = sec.file_path)).length + li]? = some v := by
      rw [List.getElem?_append_right (by omega)]
      have harith : (st.sections.filter fun s =>
          decide (¬ s.file_path = sec.file_path)).length + li -
          (st.sections.filter fun s =>
            decide (¬ s.file_path = sec.file_path)).length = li := by omega
      rw [harith, hv]
    rcases buildTree_node_mem st.files _ _ v hgv hvfile with ⟨n, hnmem, hnsidx⟩
    rcases position_exists_of_mem
      (fun n => decide (n.section_index = some ((st.sections.filter fun s =>
        decide (¬ s.file_path = sec.file_path)).length + li))) _ n hnmem
      (by simp [hnsidx]) with ⟨ni, hni⟩
    have htn : (rebuildTree { st with sections :=
        (st.sections.filter fun s => decide (¬ s.file_path = sec.file_path)) ++ ns }
        : AppState).tree_nodes = buildTree st.files
        ((st.sections.filter fun s => decide (¬ s.file_path = sec.file_path)) ++ ns) :=
      (rebuildTree_fields _).2.1
    have hni' : position
        (fun n => decide (n.section_index = some ((st.sections.filter fun s =>
          decide (¬ s.file_path = sec.file_path)).length + li)))
        (rebuildTree { st with sections :=
          (st.sections.filter fun s => decide (¬ s.file_path = sec.file_path)) ++ ns }
          : AppState).tree_nodes = some ni := by
      rw [htn]
      exact hni
    rw [hni']
    simp only []
    rcases position_sound _ _ ni hni with ⟨n2, hn2, hpn2⟩
    refine ⟨(rebuildTree_fields _).1, ?_, ?_⟩
    · intro li2 hli2
      injection hli2 with hli2
      subst hli2
      constructor
      · unfold getCurrentSectionIndex
        simp only []
        rw [htn, hn2]
        exact of_decide_eq_true hpn2
      · unfold getCurrentSection getCurrentSectionIndex
        simp only []
        rw [htn, hn2]
        simp only []
        have hsidx2 : n2.section_index = some ((st.sections.filter fun s =>
            decide (¬ s.file_path = sec.file_path)).length + li) :=
          of_decide_eq_true hpn2
        rw [hsidx2]
        show ((rebuildTree { st with sections :=
          (st.sections.filter fun s => decide (¬ s.file_path = sec.file_path)) ++ ns }
          : AppState).sections)[(st.sections.filter fun s =>
            decide (¬ s.file_path = sec.file_path)).length + li]? = ns[li]?
        rw [show (rebuildTree { st with sections :=
          (st.sections.filter fun s => decide (¬ s.file_path = sec.file_path)) ++ ns }
          : AppState).sections =
          (st.sections.filter fun s => decide (¬ s.file_path = sec.file_path)) ++ ns
          from (rebuildTree_fields _).1]
        rw [List.getElem?_append_right (by omega)]
        have harith : (st.sections.filter fun s =>
            decide (¬ s.file_path = sec.file_path)).length + li -
            (st.sections.filter fun s =>
              decide (¬ s.file_path = sec.file_path)).length = li := by omega
        rw [harith]
    · intro h
      exact absurd h (by simp)
  | none =>
    simp only []
    refine ⟨(rebuildTree_fields _).1, ?_, fun _ => rebuildTree_current_preserved _ hnd⟩
    intro li hli
    exact absurd hli (by simp)

/-- C4 counterexample: saving section `A` when the fresh parse returns the
unmatching sections `C¹ D²` leaves the selection at node index 0 — its
previous value — not at node index 1, the end of the newly spliced range, as
the claim's fallback describes. -/
theorem save_reload_fallback_counterexample :
    (saveCurrentReload demoStateSave [] [secC, secD]).sections = [secC, secD] ∧
    (saveCurrentReload demoStateSave [] [secC, secD]).current_node_index = 0 ∧
    (0 : Nat) ≠ [secC, secD].length - 1 := by
  decide

/-- C4 witness: saving `A` in the two-file demo session, with the parser
returning the fresh sections `C¹ A¹` for file `f`, retains `G` (the other
file's section), splices in the new set, and re-resolves the selection onto
the first `(title, level)` match — the new `A`, at local index 1. -/
theorem save_reload_resolves_selection_witness :
    ((saveCurrentReload demoStateMulti [] [secC, secA]).sections =
      (demoStateMulti.sections.filter fun s =>
        decide (¬ s.file_path = secA.file_path)) ++ [secC, secA] ∧
      (∀ li, position
          (fun s => decide (s.title = secA.title ∧ s.level = secA.level)) [secC, secA] =
          some li →
        getCurrentSectionIndex (saveCurrentReload demoStateMulti [] [secC, secA]) =
          some ((demoStateMulti.sections.filter fun s =>
            decide (¬ s.file_path = secA.file_path)).length + li) ∧
        getCurrentSection (saveCurrentReload demoStateMulti [] [secC, secA]) =
          [secC, secA][li]?) ∧
      (position (fun s => decide (s.title = secA.title ∧ s.level = secA.level))
          [secC, secA] = none →
        (saveCurrentReload demoStateMulti [] [secC, secA]).current_node_index =
          demoStateMulti.current_node_index)) ∧
    position (fun s => decide (s.title = secA.title ∧ s.level = secA.level))
      [secC, secA] = some 1 :=
  ⟨save_reload_resolves_selection demoStateMulti [] [secC, secA] 0 secA
    (by decide) (by decide) (by decide) (by decide) (by decide), by decide⟩

/-- The sibling scan finds nothing when an entry at a strictly shallower
level sits at position `j`, no entry between the start of the scan and `j`
is at the wanted level, and the scan starts at or before `j`. -/
theorem siblingScan_none (secs : List Section) (lvl : Nat) (j : Nat) (sj : Section)
    (hj : secs[j]? = some sj) (hlow : sj.level < lvl) :
    ∀ i, i ≤ j →
      (∀ k sk, i ≤ k → k ≤ j → secs[k]? = some sk → sk.level ≠ lvl) →
      siblingScan secs lvl i = none := by
  have hjlen : j < secs.length := by
    rcases List.getElem?_eq_some_iff.mp hj with ⟨hlt, _⟩
    exact hlt
  have hjget : secs.get ⟨j, hjlen⟩ = sj := by
    rcases List.getElem?_eq_some_iff.mp hj with ⟨hlt, hv⟩
    exact hv
  suffices H : ∀ n i, i ≤ j → j - i = n →
      (∀ k sk, i ≤ k → k ≤ j → secs[k]? = some sk → sk.level ≠ lvl) →
      siblingScan secs lvl i = none by
    intro i hi hne
    exact H (j - i) i hi rfl hne
  intro n
  induction n with
  | zero =>
    intro i hi hzero hne
    have hij : i = j := by omega
    subst hij
    unfold siblingScan
    rw [dif_pos hjlen]
    simp only []
    rw [hjget, if_neg (Nat.ne_of_lt hlow), if_pos hlow]
  | succ n ih =>
    intro i hi hsucc hne
    have hilt : i < j := by omega
    have hilen : i < secs.length := lt_trans hilt hjlen
    unfold siblingScan
    rw [dif_pos hilen]
    simp only []
    have higet : secs[i]? = some (secs.get ⟨i, hilen⟩) :=
      List.getElem?_eq_some_iff.mpr ⟨hilen, rfl⟩
    rw [if_neg (hne i _ (le_refl i) (le_of_lt hilt) higet)]
    by_cases hlt : (secs.get ⟨i, hilen⟩).level < lvl
    · rw [if_pos hlt]
    · rw [if_neg hlt]
      exact ih (i + 1) (by omega) (by omega)
        fun k sk h1 h2 h3 => hne k sk (by omega) h2 h3

/-- C9: when the forward scan from the current section meets an entry at a
strictly shallower level before any entry at the current level, the
next-sibling query returns `None` — even if sections at the same level exist
later in the list past that shallower entry. -/
theorem next_sibling_stops_at_subtree_boundary (st : AppState) (sidx j : Nat)
    (sec sj : Section)
    (hcur : getCurrentSectionIndex st = some sidx)
    (hsec : st.sections[sidx]? = some sec)
    (hij : sidx < j) (hj : st.sections[j]? = some sj) (hlow : sj.level < sec.level)
    (hne : ∀ k sk, sidx < k → k ≤ j → st.sections[k]? = some sk →
      sk.level ≠ sec.level) :
    navigateToNextSibling st = none := by
  unfold navigateToNextSibling
  rw [hcur]
  simp only []
  rw [hsec]
  simp only []
  rw [siblingScan_none st.sections sec.level j sj hj hlow (sidx + 1) (by omega)
    fun k sk h1 h2 h3 => hne k sk (by omega) h2 h3]

/-- C9 witness: with the cursor on `B` (level 2), the scan meets the
shallower `C` (level 1) first and returns `None`, although `D` (level 2)
exists past `C`. -/
theorem next_sibling_stops_at_subtree_boundary_witness :
    secD.level = secB.level ∧ navigateToNextSibling demoState = none := by
  refine ⟨by decide, ?_⟩
  refine next_sibling_stops_at_subtree_boundary demoState 1 2 secB secC
    (by decide) (by decide) (by decide) (by decide) (by decide) ?_
  intro k sk h1 h2 h3
  have hk : k = 2 := by omega
  subst hk
  have hC : some secC = some sk := by rw [← h3]; decide
  have hsk : sk = secC := (Option.some.inj hC).symm
  subst hsk
  decide

/-- C5 counterexample: replacing lines `[0, 3)` of the four-line demo file
with the one-line content `x` normalizes to two spliced lines, so the second
application of the very same Edit swallows a line the first one kept: the
bytes after two applications differ from the bytes after one. -/
theorem apply_twice_counterexample :
    applyEdit (applyEdit demoLines demoEdit) demoEdit ≠ applyEdit demoLines demoEdit := by
  decide

/-- C5 (amended): applying the same Edit twice yields the same final bytes as
applying it once, provided the normalized replacement occupies exactly
`line_end - line_start` lines, so that the first application leaves every
line number unchanged. -/
theorem apply_twice_idempotent (lines : List Str) (ed : Edit)
    (hse : ed.line_start.toNat ≤ ed.line_end.toNat)
    (he : ed.line_end.toNat ≤ lines.length)
    (hm : (textToLines (replacementText ed.doc_comment)).length =
      ed.line_end.toNat - ed.line_start.toNat) :
    applyEdit (applyEdit lines ed) ed = applyEdit lines ed := by
  unfold applyEdit applyEditLines
  have hA : (lines.take ed.line_start.toNat).length = ed.line_start.toNat := by
    rw [List.length_take]
    exact Nat.min_eq_left (le_trans hse he)
  have htake : (lines.take ed.line_start.toNat ++
      textToLines (replacementText ed.doc_comment) ++ lines.drop ed.line_end.toNat).take
        ed.line_start.toNat = lines.take ed.line_start.toNat :=
    splice_take _ _ _ _ hA
  have hdrop : (lines.take ed.line_start.toNat ++
      textToLines (replacementText ed.doc_comment) ++ lines.drop ed.line_end.toNat).drop
        ed.line_end.toNat = lines.drop ed.line_end.toNat := by
    refine splice_drop _ _ _ _ ?_
    rw [List.length_append, hA, hm]
    omega
  rw [htake, hdrop]

/-- C5 witness: replacing lines `[1, 3)` with content `" x\n"` normalizes to
two spliced lines (`e - s = 2`), and a second application reproduces the same
bytes. -/
theorem apply_twice_idempotent_witness :
    applyEdit (applyEdit demoLines demoEdit3) demoEdit3 = applyEdit demoLines demoEdit3 :=
  apply_twice_idempotent demoLines demoEdit3 (by decide) (by decide) (by decide)

end Asterism
